import Mathlib

/-!
Verification of the sequencing core of the Disruptor++ library.

The C++ sources are embedded shallowly: `sequence_t` (a 64-bit unsigned
counter that wraps) becomes `Nat` together with explicit arithmetic modulo
`W = 2 ^ 64`; `sequence_diff_t` (the signed 64-bit reinterpretation used by
`difference`) becomes `Int` via `toSigned`.  Atomic cells become plain values
threaded through explicit state; wait strategies become result oracles
constrained by the contract their source documents and loops enforce.
-/

namespace DisruptorPlus

/-- Modulus of `sequence_t` (uint64_t). -/
def W : Nat := 2 ^ 64

/-- The signed/unsigned boundary of 64-bit values. -/
def HALF : Nat := 2 ^ 63

/-- Wrap-around addition of two `sequence_t` values. -/
def addw (a b : Nat) : Nat := (a + b) % W

/-- Wrap-around subtraction `a - b` of two `sequence_t` values. -/
def subw (a b : Nat) : Nat := (a + (W - b % W)) % W

/-- Reinterpret a uint64 bit pattern as a signed two's-complement int64. -/
def toSigned (u : Nat) : Int :=
  if u % W < HALF then ((u % W : Nat) : Int) else ((u % W : Nat) : Int) - (W : Int)

/-- `difference(a, b)` from sequence.hpp: `static_cast<sequence_diff_t>(a - b)`,
the wrap-safe signed comparison of two sequence numbers. -/
def difference (a b : Nat) : Int := toSigned (subw a b)

/-- Truncate a signed value back to a `sequence_t`
(`static_cast<sequence_t>` of an int64 expression). -/
def intToSeq (x : Int) : Nat := (x % (W : Int)).toNat

/-! Sequence ranges (sequence_range.hpp). -/

/-- `sequence_range`: a contiguous range of sequence numbers, a pair of
`first` and `size` with wrap-around helpers. -/
structure sequence_range where
  m_first : Nat
  m_size : Nat
deriving DecidableEq

/-- `sequence_range::first()`. -/
def sequence_range.first (r : sequence_range) : Nat := r.m_first

/-- `sequence_range::size()`. -/
def sequence_range.size (r : sequence_range) : Nat := r.m_size

/-- `sequence_range::end()`: one past the last sequence number. -/
def sequence_range.endSeq (r : sequence_range) : Nat := addw r.m_first r.m_size

/-- `sequence_range::last()`: `end() - 1`. -/
def sequence_range.last (r : sequence_range) : Nat := subw (sequence_range.endSeq r) 1

/-- `sequence_range::operator[]`: `first + index`. -/
def sequence_range.get (r : sequence_range) (index : Nat) : Nat := addw r.m_first index

/-! Sequence helpers over arrays of cells (sequence.hpp).  An array of
pointers to atomic cells becomes the list of the values a single scan reads. -/

/-- Loop body of `minimum_sequence`: keep the running minimum under
`difference`, examining the remaining cells in order. -/
def minimumSequenceAux (current : Nat) : List Nat → Nat
  | [] => current
  | c :: rest => minimumSequenceAux (if difference c current < 0 then c else current) rest

/-- `minimum_sequence(count, sequences)`: minimum of the cell values using the
first as zero-point (the `[]` case is ruled out by the source's
`assert(count > 0)`). -/
def minimum_sequence : List Nat → Nat
  | [] => 0
  | c :: rest => minimumSequenceAux c rest

/-- Loop of `minimum_sequence_after`: fold the minimum signed delta to
`target`, stopping as soon as the running delta becomes negative (the `for`
condition `i < count && minDelta >= 0`). -/
def minSeqAfterAux (target : Nat) (minDelta : Int) : List Nat → Int
  | [] => minDelta
  | c :: rest =>
    if 0 ≤ minDelta then minSeqAfterAux target (min minDelta (difference c target)) rest
    else minDelta

/-- `minimum_sequence_after(minimum, count, sequences)`: returns
`static_cast<sequence_t>(minDelta + minimum)` where `minDelta` is the
short-circuited minimum of `difference(cell, minimum)`. -/
def minimum_sequence_after (target : Nat) : List Nat → Nat
  | [] => target
  | c :: rest => intToSeq (minSeqAfterAux target (difference c target) rest + (target : Int))

/-- The first cell value (in scan order) whose `difference` to the target is
negative, if any: the cell on which `minimum_sequence_after` short-circuits. -/
def firstPreceding (target : Nat) (cells : List Nat) : Option Nat :=
  cells.find? (fun c => decide (difference c target < 0))

/-! Sequence barrier group (sequence_barrier_group.hpp); a group is the list
of the member barriers' cell values at the scan.  A wait strategy's untimed
`wait_until_published(seq, count, cells)` blocks until the minimum reaches
`seq`, so a completed call is modelled by a result oracle `ws` whose contract
is `0 ≤ difference (ws seq) seq`. -/

/-- `sequence_barrier_group::last_published()`: `minimum_sequence` over the
member cells (the source asserts the group is non-empty). -/
def sbg_last_published (cells : List Nat) : Nat := minimum_sequence cells

/-- Untimed `sequence_barrier_group::wait_until_published(sequence)`: return
the current minimum if it has already reached `sequence`, otherwise the
result of the wait strategy's untimed wait. -/
def sbg_wait_until_published (cells : List Nat) (ws : Nat → Nat) (sequence : Nat) : Nat :=
  let current := minimum_sequence_after sequence cells
  if 0 ≤ difference current sequence then current else ws sequence

/-! Multi-threaded claim strategy (multi_threaded_claim_strategy.hpp). -/

/-- The publication map `m_published`: `bufferSize` atomic entries; entry `i`
holds the most recent sequence committed whose index is `i`. -/
structure published_map where
  bufferSize : Nat
  entries : Nat → Nat

/-- The constructor loop: every entry `i` of a fresh map is initialised to
`static_cast<sequence_t>(i - bufferSize)` so that no sequence before zero is
considered published. -/
def mt_initial_published (bufferSize : Nat) : published_map :=
  ⟨bufferSize, fun i => subw i bufferSize⟩

/-- `is_published(seq)`: `m_published[seq & m_indexMask].load(acquire) == seq`
with `m_indexMask = bufferSize - 1`. -/
def is_published (m : published_map) (sequence : Nat) : Bool :=
  m.entries (sequence &&& (m.bufferSize - 1)) == sequence

/-- `set_published(seq)`: store `seq` into `m_published[seq & m_indexMask]`. -/
def set_published (m : published_map) (sequence : Nat) : published_map :=
  ⟨m.bufferSize,
   fun i => if i = sequence &&& (m.bufferSize - 1) then sequence else m.entries i⟩

/-- The assertion guarding `set_published`: the entry being overwritten still
holds `static_cast<sequence_t>(sequence - m_bufferSize)`. -/
def set_published_assert (m : published_map) (sequence : Nat) : Prop :=
  m.entries (sequence &&& (m.bufferSize - 1)) = subw sequence m.bufferSize

/-- Loop of `last_published_after`: advance `lastKnownPublished` while the
next sequence is published.  A fixed map publishes at most `bufferSize`
distinct sequences (one per entry), so the scan stops within `bufferSize`
steps; the `fuel` argument makes that recursion structural and
`last_published_after` supplies `bufferSize + 1`, which the pigeonhole lemma
below proves is never exhausted. -/
def lastPublishedAfterAux (m : published_map) : Nat → Nat → Nat
  | 0, lastKnownPublished => lastKnownPublished
  | fuel + 1, lastKnownPublished =>
    let seq := addw lastKnownPublished 1
    if is_published m seq then lastPublishedAfterAux m fuel seq else lastKnownPublished

/-- `last_published_after(lastKnownPublished)`: the highest sequence `r` such
that every sequence after `lastKnownPublished` up to `r` is published. -/
def last_published_after (m : published_map) (lastKnownPublished : Nat) : Nat :=
  lastPublishedAfterAux m (m.bufferSize + 1) lastKnownPublished

/-- Loop of the deadline overload of
`multi_threaded_claim_strategy::wait_until_published(sequence,
lastKnownPublished, timeoutTime)`: for each `seq` in the modular interval
`[lastKnownPublished + 1, sequence]` (its length is the `remaining`
argument; the source iterates while `difference(seq, sequence) <= 0`, which
under the source's `assert(difference(sequence, lastKnownPublished) > 0)`
visits exactly that interval), an unpublished `seq` invokes
`m_waitStrategy.wait_until_published(seq, 1, sequences)` — the UNTIMED wait
strategy overload, `timeoutTime` is not forwarded — modelled by the oracle
`ws`; a result preceding `seq` returns `seq - 1` early (`some`), otherwise
the scan continues (`none` = loop completed). -/
def mtWaitTimedLoop (m : published_map) (ws : Nat → Nat) : Nat → Nat → Option Nat
  | _, 0 => none
  | seq, remaining + 1 =>
    if is_published m seq then mtWaitTimedLoop m ws (addw seq 1) remaining
    else
      if difference (ws seq) seq < 0 then some (subw seq 1)
      else mtWaitTimedLoop m ws (addw seq 1) remaining

/-- The deadline overload of
`multi_threaded_claim_strategy::wait_until_published`.  Its `timeoutTime`
parameter is carried to mirror the C++ signature but — exactly as in the
source body — it is never read: the body only ever calls the untimed wait
strategy overload. -/
def mt_wait_until_published_until (m : published_map) (ws : Nat → Nat)
    (sequence lastKnownPublished : Nat) (_timeoutTime : Nat) : Nat :=
  match mtWaitTimedLoop m ws (addw lastKnownPublished 1) (subw sequence lastKnownPublished) with
  | some r => r
  | none => last_published_after m sequence

/-- `multi_threaded_claim_strategy::claim(count)` up to its blocking wait:
cap `count` at `bufferSize`, fetch-add the capped count onto
`m_nextClaimable` (returning its pre-add value as the range start), and
return the claimed range together with the post-add counter. -/
def mt_claim (bufferSize nextClaimable count : Nat) : sequence_range × Nat :=
  let c := min count bufferSize
  (⟨nextClaimable, c⟩, addw nextClaimable c)

/-- The back-pressure target `claim(count)` waits on before returning:
`range.last() - m_bufferSize`. -/
def mt_claim_wait_target (bufferSize nextClaimable count : Nat) : Nat :=
  subw (sequence_range.last (mt_claim bufferSize nextClaimable count).1) bufferSize

/-- `multi_threaded_claim_strategy::try_claim(count, range)`, sequential
(interference-free) semantics of one call: `lastPub` is the claim barrier
group's `last_published()` observation and the CAS succeeds at its first
attempt.  Returns (result, new `m_nextClaimable`, the range written). -/
def mt_try_claim (bufferSize lastPub nextClaimable count : Nat) :
    Bool × Nat × Option sequence_range :=
  let published := addw lastPub bufferSize
  let diff := difference published nextClaimable
  if diff < 0 then (false, nextClaimable, none)
  else
    let c := min count (diff + 1).toNat
    (true, addw nextClaimable c, some ⟨nextClaimable, c⟩)

/-- `multi_threaded_claim_strategy::try_claim_until(count, range,
timeoutTime)`, sequential semantics (`try_claim_for` delegates here):
`lastPub` is the first `last_published()` observation; when it is too far
behind, `waitResult` is what the timed barrier-group wait returned by the
deadline.  Returns (result, new `m_nextClaimable`, the range written). -/
def mt_try_claim_until (bufferSize lastPub waitResult nextClaimable count : Nat) :
    Bool × Nat × Option sequence_range :=
  let published := addw lastPub bufferSize
  let diff := difference published nextClaimable
  if diff < 0 then
    let published2 := addw waitResult bufferSize
    let diff2 := difference published2 nextClaimable
    if diff2 < 0 then (false, nextClaimable, none)
    else
      let c := min count (diff2 + 1).toNat
      (true, addw nextClaimable c, some ⟨nextClaimable, c⟩)
  else
    let c := min count (diff + 1).toNat
    (true, addw nextClaimable c, some ⟨nextClaimable, c⟩)

/-! Single-threaded claim strategy (single_threaded_claim_strategy.hpp). -/

/-- Producer-side state of `single_threaded_claim_strategy`: the private
`m_nextSequenceToClaim`, the cached `m_lastKnownClaimableSequence`, and the
current values of the registered claim-barrier cells. -/
structure STState where
  m_nextSequenceToClaim : Nat
  m_lastKnownClaimableSequence : Nat
  cells : List Nat
deriving DecidableEq

/-- The state after construction and `add_claim_barrier` of `barrierCount`
fresh barriers (each initialised to `sequence_t(-1)`): the last `add` leaves
the cache at `last_published() + bufferSize`. -/
def st_init (bufferSize barrierCount : Nat) : STState :=
  ⟨0, addw (W - 1) bufferSize, List.replicate barrierCount (W - 1)⟩

/-- `single_threaded_claim_strategy::try_claim(count, range)`.  Returns
(result, new state, the range written to the out-parameter). -/
def st_try_claim (bufferSize : Nat) (s : STState) (count : Nat) :
    Bool × STState × Option sequence_range :=
  let diff := difference s.m_lastKnownClaimableSequence s.m_nextSequenceToClaim
  if diff < 0 then
    let seq := addw (sbg_last_published s.cells) bufferSize
    let diff2 := difference seq s.m_nextSequenceToClaim
    if diff2 < 0 then (false, s, none)
    else
      let c := min count (diff2 + 1).toNat
      (true, ⟨addw s.m_nextSequenceToClaim c, seq, s.cells⟩,
       some ⟨s.m_nextSequenceToClaim, c⟩)
  else
    let c := min count (diff + 1).toNat
    (true, ⟨addw s.m_nextSequenceToClaim c, s.m_lastKnownClaimableSequence, s.cells⟩,
     some ⟨s.m_nextSequenceToClaim, c⟩)

/-- `single_threaded_claim_strategy::try_claim_until(count, range,
timeoutTime)` (`try_claim_for` delegates to the same shape with
`deadline = now + timeout`): first a plain `try_claim`; on failure wait on
the claim barrier with the deadline — `waitResult` is what that timed wait
returned — and fail without touching any state if it still precedes the
needed sequence. -/
def st_try_claim_until (bufferSize : Nat) (s : STState) (count : Nat) (waitResult : Nat) :
    Bool × STState × Option sequence_range :=
  let attempt := st_try_claim bufferSize s count
  if attempt.1 then attempt
  else
    let claimable := addw waitResult bufferSize
    let diff := difference claimable s.m_nextSequenceToClaim
    if diff < 0 then (false, s, none)
    else
      let c := min count (diff + 1).toNat
      (true, ⟨addw s.m_nextSequenceToClaim c, claimable, s.cells⟩,
       some ⟨s.m_nextSequenceToClaim, c⟩)

/-! Reachable states of the single-producer strategy: producer claims
interleaved with consumer publishes to the registered claim barriers.  A
consumer may only move its barrier cell forward (`hmono`; barrier cursors
are monotone by contract) and only up to sequences the producer has already
claimed (`hclaimed`). -/

/-- One step of the single-producer system. -/
inductive STStep (bufferSize : Nat) : STState → STState → Prop
  | try_claim_step (n : Nat) (s : STState) :
      STStep bufferSize s (st_try_claim bufferSize s n).2.1
  | publish_step (i v : Nat) (s : STState) (hi : i < s.cells.length) (hv : v < W)
      (hmono : 0 ≤ difference v (s.cells.get ⟨i, hi⟩))
      (hclaimed : difference v s.m_nextSequenceToClaim < 0) :
      STStep bufferSize s
        ⟨s.m_nextSequenceToClaim, s.m_lastKnownClaimableSequence, s.cells.set i v⟩

/-- Reachability for the single-producer system. -/
inductive STReachable (bufferSize barrierCount : Nat) : STState → Prop
  | init : STReachable bufferSize barrierCount (st_init bufferSize barrierCount)
  | step (s t : STState) : STReachable bufferSize barrierCount s → STStep bufferSize s t →
      STReachable bufferSize barrierCount t

/-! Reachable states of the multi-producer strategy.  `claim_one` splits into
its fetch-add (`claim_start`, which advances `m_nextClaimable` immediately)
and the completion of its back-pressure wait (`claim_finish`, enabled once
the claim barrier minimum has reached `seq - bufferSize`, which is the
return condition of `m_claimBarrier.wait_until_published`).  `pending` holds
the sequences of claims whose calls have not yet returned.  The window
hypotheses on `claim_start` are the library's 2^62 window assumption (spec
invariant I4) for the quantities the machine tracks. -/

/-- State of the multi-producer system. -/
structure MTState where
  m_nextClaimable : Nat
  pending : List Nat
  cells : List Nat
deriving DecidableEq

/-- One step of the multi-producer system. -/
inductive MTStep (bufferSize : Nat) : MTState → MTState → Prop
  | claim_start (s : MTState)
      (hwin1 : s.pending.length + bufferSize + 2 < 2 ^ 62)
      (hwin2 : ∀ q ∈ s.pending, subw s.m_nextClaimable q + 1 < 2 ^ 62) :
      MTStep bufferSize s ⟨addw s.m_nextClaimable 1, s.m_nextClaimable :: s.pending, s.cells⟩
  | claim_finish (s : MTState) (seq : Nat) (hmem : seq ∈ s.pending)
      (hwait : 0 ≤ difference (minimum_sequence s.cells) (subw seq bufferSize)) :
      MTStep bufferSize s ⟨s.m_nextClaimable, s.pending.erase seq, s.cells⟩
  | publish_step (i v : Nat) (s : MTState) (hi : i < s.cells.length) (hv : v < W)
      (hmono : 0 ≤ difference v (s.cells.get ⟨i, hi⟩))
      (hclaimed : difference v s.m_nextClaimable < 0) :
      MTStep bufferSize s ⟨s.m_nextClaimable, s.pending, s.cells.set i v⟩

/-- Reachability for the multi-producer system. -/
inductive MTReachable (bufferSize barrierCount : Nat) : MTState → Prop
  | init : MTReachable bufferSize barrierCount ⟨0, [], List.replicate barrierCount (W - 1)⟩
  | step (s t : MTState) : MTReachable bufferSize barrierCount s → MTStep bufferSize s t →
      MTReachable bufferSize barrierCount t

/-- Inductive invariant of the single-producer system: every barrier cell
sits `d ∈ [1, bufferSize + 1]` behind `m_nextSequenceToClaim`, and the cache
is either exhausted (`nextToClaim - 1`) or a sound claimable bound
(`min cell + bufferSize` or older). -/
def stInv (bufferSize : Nat) (s : STState) : Prop :=
  (∀ x ∈ s.cells, ∃ d, 1 ≤ d ∧ d ≤ bufferSize + 1 ∧ x < W ∧
    s.m_nextSequenceToClaim = addw x d) ∧
  (s.m_lastKnownClaimableSequence = subw s.m_nextSequenceToClaim 1 ∨
   ∃ g, s.m_lastKnownClaimableSequence = addw s.m_nextSequenceToClaim g ∧ g ≤ bufferSize ∧
     ∀ x ∈ s.cells, ∀ d, s.m_nextSequenceToClaim = addw x d → d ≤ bufferSize + 1 →
       g + d ≤ bufferSize) ∧
  s.m_nextSequenceToClaim < W

/-- Inductive invariant of the multi-producer system: every barrier cell sits
`d ≥ 1` behind `m_nextClaimable`, and every claimed sequence further than
`bufferSize` ahead of a cell belongs to a still-pending claim (a finished
claim has already forced every cell up to its own back-pressure bound). -/
def mtInv (bufferSize : Nat) (s : MTState) : Prop :=
  (∀ x ∈ s.cells, ∃ d, 1 ≤ d ∧ d < 2 ^ 62 ∧ x < W ∧ s.m_nextClaimable = addw x d ∧
    ∀ j, j + bufferSize + 1 < d → subw s.m_nextClaimable (j + 1) ∈ s.pending) ∧
  (∀ q ∈ s.pending, q < W ∧ 1 ≤ subw s.m_nextClaimable q ∧
    subw s.m_nextClaimable q < 2 ^ 62) ∧
  s.m_nextClaimable < W

/-! Basic facts about the wrap arithmetic. -/

theorem W_pos : 0 < W := by decide

theorem addw_lt (a b : Nat) : addw a b < W := Nat.mod_lt _ W_pos

theorem subw_lt (a b : Nat) : subw a b < W := Nat.mod_lt _ W_pos

theorem intToSeq_lt (x : Int) : intToSeq x < W := by
  have h : x % (W : Int) < (W : Int) := Int.emod_lt_of_pos x (by decide)
  have h0 : 0 ≤ x % (W : Int) := Int.emod_nonneg x (by decide)
  unfold intToSeq
  omega

theorem subw_eq_intToSeq (a b : Nat) : subw a b = intToSeq ((a : Int) - (b : Int)) := by
  unfold subw intToSeq W
  omega

theorem addw_eq_intToSeq (a b : Nat) : addw a b = intToSeq ((a : Int) + (b : Int)) := by
  unfold addw intToSeq W
  omega

/-- Normal form of `difference`: centre `a - b` into `[-2^63, 2^63)`. -/
theorem difference_spec (a b : Nat) :
    difference a b = ((a : Int) - (b : Int) + 2 ^ 63) % 2 ^ 64 - 2 ^ 63 := by
  unfold difference toSigned subw W HALF
  split <;> omega

theorem difference_self (a : Nat) : difference a a = 0 := by
  rw [difference_spec]
  omega

theorem diff_addw_self (x d : Nat) (h : d < 2 ^ 63) : difference (addw x d) x = (d : Int) := by
  rw [difference_spec]
  unfold addw W
  omega

theorem diff_self_addw (x d : Nat) (h0 : 0 < d) (h : d ≤ 2 ^ 63) :
    difference x (addw x d) = -(d : Int) := by
  rw [difference_spec]
  unfold addw W
  omega

theorem diff_subw_self (x d : Nat) (h0 : 0 < d) (h : d ≤ 2 ^ 63) :
    difference (subw x d) x = -(d : Int) := by
  rw [difference_spec]
  unfold subw W
  omega

theorem diff_self_subw (x d : Nat) (h : d < 2 ^ 63) : difference x (subw x d) = (d : Int) := by
  rw [difference_spec]
  unfold subw W
  omega

/-- Two values at signed offsets `d1`, `d2` from a common anchor compare by
exact integer subtraction of the offsets, provided both offsets stay inside
the library's `2^62` window assumption. -/
theorem diff_offsets (t : Nat) (d1 d2 : Int)
    (h1l : -(2 ^ 62) ≤ d1) (h1u : d1 ≤ 2 ^ 62) (h2l : -(2 ^ 62) ≤ d2) (h2u : d2 ≤ 2 ^ 62)
    (hlt : d1 - d2 < 2 ^ 63) :
    difference (intToSeq ((t : Int) + d1)) (intToSeq ((t : Int) + d2)) = d1 - d2 := by
  rw [difference_spec]
  unfold intToSeq W
  rw [Int.toNat_of_nonneg (Int.emod_nonneg _ (by norm_num)),
      Int.toNat_of_nonneg (Int.emod_nonneg _ (by norm_num))]
  push_cast
  omega

/-- `difference x t` recovers the signed offset of `x` from anchor `t`. -/
theorem diff_intToSeq_anchor (t : Nat) (d : Int)
    (hl : -(2 ^ 63) ≤ d) (hu : d < 2 ^ 63) :
    difference (intToSeq ((t : Int) + d)) t = d := by
  rw [difference_spec]
  unfold intToSeq W
  rw [Int.toNat_of_nonneg (Int.emod_nonneg _ (by norm_num))]
  push_cast
  omega

/-- Adding the reference value back to a `difference` restores the first
argument (reduced modulo `2^64`). -/
theorem intToSeq_difference_add (a b : Nat) :
    intToSeq (difference a b + (b : Int)) = a % W := by
  rw [difference_spec]
  unfold intToSeq W
  omega

/-! Composition and cancellation laws for the wrap arithmetic. -/

theorem addw_addw (a b c : Nat) : addw (addw a b) c = addw a (b + c) := by
  unfold addw W
  omega

theorem subw_subw (a b c : Nat) : subw (subw a b) c = subw a (b + c) := by
  unfold subw W
  omega

theorem addw_zero (a : Nat) (h : a < W) : addw a 0 = a := by
  unfold addw W at *
  omega

theorem subw_addw_cancel (x d : Nat) (hx : x < W) : subw (addw x d) d = x := by
  unfold addw subw W at *
  omega

theorem addw_subw_cancel (n v : Nat) (hn : n < W) : addw v (subw n v) = n := by
  unfold addw subw W at *
  omega

theorem addw_right_cancel (x d1 d2 : Nat) (h1 : d1 < W) (h2 : d2 < W)
    (h : addw x d1 = addw x d2) : d1 = d2 := by
  unfold addw W at *
  omega

theorem subw_right_cancel (n d1 d2 : Nat) (h1 : d1 < W) (h2 : d2 < W)
    (h : subw n d1 = subw n d2) : d1 = d2 := by
  unfold subw W at *
  omega

theorem subw_addw_one (n q : Nat) (h : subw n q + 1 < W) :
    subw (addw n 1) q = subw n q + 1 := by
  unfold addw subw W at *
  omega

theorem subw_succ_shift (n j : Nat) : subw (addw n 1) (j + 1) = subw n j := by
  unfold addw subw W
  omega

theorem diff_subw_subw (n a b : Nat) (ha : a < 2 ^ 63) (hb : b < 2 ^ 63) :
    difference (subw n a) (subw n b) = (b : Int) - (a : Int) := by
  rw [difference_spec]
  unfold subw W
  omega

theorem diff_neg_offset (v n : Nat)
    (h : difference v n < 0) : 1 ≤ subw n v ∧ subw n v ≤ 2 ^ 63 := by
  rw [difference_spec] at h
  unfold subw W at *
  omega

theorem addw_offset_of_mem (x d n : Nat) (hx : x < W) (h : n = addw x d) :
    x = subw n d := by
  unfold addw subw W at *
  omega

/-- C6: for every pair of 64-bit sequence numbers whose modular distance is
below `2^62` — written `b = addw a d` with `d < 2^62` — `difference a b` is
negative exactly when `a` precedes `b` in insertion order (`0 < d`), zero
exactly when they are equal, and `difference b a` is positive exactly when
`a` precedes `b`, including across the wrap-around of the counter. -/
theorem difference_sign_spec (a d : Nat) (ha : a < W) (hd : d < 2 ^ 62) :
    (difference a (addw a d) < 0 ↔ 0 < d) ∧
    (difference a (addw a d) = 0 ↔ d = 0) ∧
    (0 < difference (addw a d) a ↔ 0 < d) := by
  by_cases h0 : d = 0
  · subst h0
    rw [addw_zero a ha, difference_self]
    simp
  · have h1 : difference (addw a d) a = (d : Int) := diff_addw_self a d (by omega)
    have h2 : difference a (addw a d) = -(d : Int) := diff_self_addw a d (by omega) (by omega)
    rw [h1, h2]
    refine ⟨?_, ?_, ?_⟩ <;> omega

/-- Witness for C6 at the wrap-around point `a = 2^64 - 1`, `d = 1`. -/
theorem difference_sign_spec_witness :
    (difference (W - 1) (addw (W - 1) 1) < 0 ↔ 0 < 1) ∧
    (difference (W - 1) (addw (W - 1) 1) = 0 ↔ (1 : Nat) = 0) ∧
    (0 < difference (addw (W - 1) 1) (W - 1) ↔ 0 < 1) :=
  difference_sign_spec (W - 1) 1 (by decide) (by decide)

/-- C5: after construction with power-of-two capacity `C = 2^k`, every
publication-map entry `i < C` holds `i - C` modulo `2^64`, so no sequence in
`[0, C)` is initially considered published; and `set_published s` stores `s`
into entry `s & (C - 1)` under the asserted precondition that the entry
currently holds `s - C` — after which the precondition for `s` can never
hold again, so the entry transitions from `s - C` to `s` exactly once per
lap. -/
theorem published_map_init_transition (k C : Nat) (hk : k < 64) (hC : C = 2 ^ k) :
    (∀ i, i < C → (mt_initial_published C).entries i = subw i C) ∧
    (∀ s, s < C → is_published (mt_initial_published C) s = false) ∧
    (∀ (m : published_map) (s : Nat), m.bufferSize = C → set_published_assert m s →
       m.entries (s &&& (C - 1)) = subw s C ∧
       (set_published m s).entries (s &&& (C - 1)) = s ∧
       ¬ set_published_assert (set_published m s) s) := by
  have hCW : C < 2 ^ 64 := by
    rw [hC]
    exact Nat.pow_lt_pow_right (by norm_num) hk
  have hC0 : 0 < C := by
    rw [hC]
    exact Nat.pos_pow_of_pos k (by norm_num)
  refine ⟨fun i _ => rfl, ?_, ?_⟩
  · intro s hs
    have hmask : s &&& (C - 1) = s := by
      rw [hC, Nat.and_pow_two_sub_one_eq_mod]
      exact Nat.mod_eq_of_lt (hC ▸ hs)
    simp only [is_published, mt_initial_published, hmask, beq_eq_false_iff_ne, ne_eq]
    intro heq
    unfold subw W at heq
    rw [Nat.mod_eq_of_lt hCW] at heq
    rw [Nat.mod_eq_of_lt (by omega)] at heq
    omega
  · intro m s hbs hassert
    refine ⟨?_, ?_, ?_⟩
    · unfold set_published_assert at hassert
      rw [hbs] at hassert
      exact hassert
    · simp [set_published, hbs]
    · simp only [set_published_assert, set_published, hbs, if_pos rfl, if_true]
      intro hbad
      unfold subw W at hbad
      rw [Nat.mod_eq_of_lt hCW] at hbad
      omega

/-- Witness for C5 at capacity `4 = 2^2`, publishing sequence `6`. -/
theorem published_map_init_transition_witness :
    (∀ i, i < 4 → (mt_initial_published 4).entries i = subw i 4) ∧
    (∀ s, s < 4 → is_published (mt_initial_published 4) s = false) ∧
    (∀ (m : published_map) (s : Nat), m.bufferSize = 4 → set_published_assert m s →
       m.entries (s &&& (4 - 1)) = subw s 4 ∧
       (set_published m s).entries (s &&& (4 - 1)) = s ∧
       ¬ set_published_assert (set_published m s) s) :=
  published_map_init_transition 2 4 (by decide) (by decide)

/-! Case analysis of the try-claim operations. -/

theorem st_try_claim_false_iff (C : Nat) (s : STState) (n : Nat) :
    (st_try_claim C s n).1 = false ↔
      (difference s.m_lastKnownClaimableSequence s.m_nextSequenceToClaim < 0 ∧
       difference (addw (sbg_last_published s.cells) C) s.m_nextSequenceToClaim < 0) := by
  simp only [st_try_claim]
  split_ifs with h1 h2 <;> simp_all

theorem st_try_claim_false_eq (C : Nat) (s : STState) (n : Nat)
    (h : (st_try_claim C s n).1 = false) : st_try_claim C s n = (false, s, none) := by
  simp only [st_try_claim] at h ⊢
  split_ifs at h ⊢ with h1 h2 <;> simp_all

theorem st_try_claim_cached_eq (C : Nat) (s : STState) (n : Nat)
    (h : 0 ≤ difference s.m_lastKnownClaimableSequence s.m_nextSequenceToClaim) :
    st_try_claim C s n =
      (true,
       ⟨addw s.m_nextSequenceToClaim
          (min n (difference s.m_lastKnownClaimableSequence s.m_nextSequenceToClaim + 1).toNat),
        s.m_lastKnownClaimableSequence, s.cells⟩,
       some ⟨s.m_nextSequenceToClaim,
             min n (difference s.m_lastKnownClaimableSequence
                      s.m_nextSequenceToClaim + 1).toNat⟩) := by
  simp only [st_try_claim]
  rw [if_neg (by omega)]

theorem st_try_claim_fresh_eq (C : Nat) (s : STState) (n : Nat)
    (h1 : difference s.m_lastKnownClaimableSequence s.m_nextSequenceToClaim < 0)
    (h2 : 0 ≤ difference (addw (sbg_last_published s.cells) C) s.m_nextSequenceToClaim) :
    st_try_claim C s n =
      (true,
       ⟨addw s.m_nextSequenceToClaim
          (min n (difference (addw (sbg_last_published s.cells) C)
                    s.m_nextSequenceToClaim + 1).toNat),
        addw (sbg_last_published s.cells) C, s.cells⟩,
       some ⟨s.m_nextSequenceToClaim,
             min n (difference (addw (sbg_last_published s.cells) C)
                      s.m_nextSequenceToClaim + 1).toNat⟩) := by
  simp only [st_try_claim]
  rw [if_pos h1, if_neg (by omega)]

theorem st_try_claim_until_false_eq (C : Nat) (s : STState) (n w : Nat)
    (h : (st_try_claim_until C s n w).1 = false) :
    st_try_claim_until C s n w = (false, s, none) := by
  simp only [st_try_claim_until] at h ⊢
  split_ifs at h ⊢ with h1 h2 <;> simp_all

theorem mt_try_claim_false_eq (C lastPub next n : Nat)
    (h : (mt_try_claim C lastPub next n).1 = false) :
    mt_try_claim C lastPub next n = (false, next, none) := by
  simp only [mt_try_claim] at h ⊢
  split_ifs at h ⊢ with h1 <;> simp_all

theorem mt_try_claim_until_false_eq (C lastPub w next n : Nat)
    (h : (mt_try_claim_until C lastPub w next n).1 = false) :
    mt_try_claim_until C lastPub w next n = (false, next, none) := by
  simp only [mt_try_claim_until] at h ⊢
  split_ifs at h ⊢ with h1 h2 <;> simp_all

/-- Helper: the untimed barrier-group wait returns a value at or after the
requested sequence, by the fast path or by the wait strategy contract. -/
theorem sbg_wait_contract (cells : List Nat) (ws : Nat → Nat) (sequence : Nat)
    (hws : ∀ t, 0 ≤ difference (ws t) t) :
    0 ≤ difference (sbg_wait_until_published cells ws sequence) sequence := by
  simp only [sbg_wait_until_published]
  split_ifs with h
  · exact h
  · exact hws sequence

/-- C8: `single_threaded_claim_strategy::try_claim(n, range)`: when the
cached bound precedes `nextToClaim` it recomputes the bound once as
`claimBarrier.last_published() + bufferSize`; it fails exactly when that
refreshed bound still precedes `nextToClaim` (leaving all state and the
out-parameter untouched); otherwise it claims
`min(n, difference(bound, nextToClaim) + 1)` sequences starting at
`nextToClaim`, writes that range to the out-parameter, advances
`nextToClaim` by the claimed count (recording the refreshed bound in the
cache when it was recomputed), and returns true. -/
theorem st_try_claim_spec (C : Nat) (s : STState) (n : Nat) :
    ((st_try_claim C s n).1 = false ↔
       (difference s.m_lastKnownClaimableSequence s.m_nextSequenceToClaim < 0 ∧
        difference (addw (sbg_last_published s.cells) C) s.m_nextSequenceToClaim < 0)) ∧
    ((st_try_claim C s n).1 = false → st_try_claim C s n = (false, s, none)) ∧
    (0 ≤ difference s.m_lastKnownClaimableSequence s.m_nextSequenceToClaim →
       st_try_claim C s n =
         (true,
          ⟨addw s.m_nextSequenceToClaim
             (min n (difference s.m_lastKnownClaimableSequence
                       s.m_nextSequenceToClaim + 1).toNat),
           s.m_lastKnownClaimableSequence, s.cells⟩,
          some ⟨s.m_nextSequenceToClaim,
                min n (difference s.m_lastKnownClaimableSequence
                         s.m_nextSequenceToClaim + 1).toNat⟩)) ∧
    (difference s.m_lastKnownClaimableSequence s.m_nextSequenceToClaim < 0 →
     0 ≤ difference (addw (sbg_last_published s.cells) C) s.m_nextSequenceToClaim →
       st_try_claim C s n =
         (true,
          ⟨addw s.m_nextSequenceToClaim
             (min n (difference (addw (sbg_last_published s.cells) C)
                       s.m_nextSequenceToClaim + 1).toNat),
           addw (sbg_last_published s.cells) C, s.cells⟩,
          some ⟨s.m_nextSequenceToClaim,
                min n (difference (addw (sbg_last_published s.cells) C)
                         s.m_nextSequenceToClaim + 1).toNat⟩)) :=
  ⟨st_try_claim_false_iff C s n, st_try_claim_false_eq C s n,
   st_try_claim_cached_eq C s n, st_try_claim_fresh_eq C s n⟩

/-- Witness for C8 at bufferSize 4, a state with a valid cache (bound 3,
nextToClaim 0), requesting 2: two sequences are claimed. -/
theorem st_try_claim_spec_witness :
    st_try_claim 4 ⟨0, 3, [W - 1]⟩ 2 =
      (true, ⟨addw 0 (min 2 (difference 3 0 + 1).toNat), 3, [W - 1]⟩,
       some ⟨0, min 2 (difference 3 0 + 1).toNat⟩) :=
  (st_try_claim_spec 4 ⟨0, 3, [W - 1]⟩ 2).2.2.1 (by decide)

/-- C9: whenever `try_claim`, `try_claim_for` or `try_claim_until` of either
claim strategy returns false, the call has claimed nothing: the producer
cursor (`m_nextSequenceToClaim` resp. `m_nextClaimable`) and all other state
are unchanged and the `range` out-parameter is not written (the `_for`
variants delegate to the `_until` shape with `deadline = now + timeout`). -/
theorem try_claim_false_no_effect (C : Nat) (s : STState) (n w lastPub next wr : Nat) :
    ((st_try_claim C s n).1 = false → st_try_claim C s n = (false, s, none)) ∧
    ((st_try_claim_until C s n w).1 = false →
       st_try_claim_until C s n w = (false, s, none)) ∧
    ((mt_try_claim C lastPub next n).1 = false →
       mt_try_claim C lastPub next n = (false, next, none)) ∧
    ((mt_try_claim_until C lastPub wr next n).1 = false →
       mt_try_claim_until C lastPub wr next n = (false, next, none)) :=
  ⟨st_try_claim_false_eq C s n, st_try_claim_until_false_eq C s n w,
   mt_try_claim_false_eq C lastPub next n, mt_try_claim_until_false_eq C lastPub wr next n⟩

/-- Witness for C9 at bufferSize 1 with a full ring (nextToClaim 1, barrier
still at -1): all four calls return false and leave everything unchanged. -/
theorem try_claim_false_no_effect_witness :
    st_try_claim 1 ⟨1, 0, [W - 1]⟩ 1 = (false, ⟨1, 0, [W - 1]⟩, none) ∧
    st_try_claim_until 1 ⟨1, 0, [W - 1]⟩ 1 (W - 1) = (false, ⟨1, 0, [W - 1]⟩, none) ∧
    mt_try_claim 1 (W - 1) 1 1 = (false, 1, none) ∧
    mt_try_claim_until 1 (W - 1) (W - 1) 1 1 = (false, 1, none) :=
  ⟨(try_claim_false_no_effect 1 ⟨1, 0, [W - 1]⟩ 1 (W - 1) (W - 1) 1 (W - 1)).1 (by decide),
   (try_claim_false_no_effect 1 ⟨1, 0, [W - 1]⟩ 1 (W - 1) (W - 1) 1 (W - 1)).2.1 (by decide),
   (try_claim_false_no_effect 1 ⟨1, 0, [W - 1]⟩ 1 (W - 1) (W - 1) 1 (W - 1)).2.2.1 (by decide),
   (try_claim_false_no_effect 1 ⟨1, 0, [W - 1]⟩ 1 (W - 1) (W - 1) 1 (W - 1)).2.2.2 (by decide)⟩

/-- C10: a zero-count claim still succeeds at the public interface: whenever
at least one slot is claimable (by the cache or by a refresh),
`single_threaded_claim_strategy::try_claim(0, range)` returns true with a
zero-size range and an unchanged `nextToClaim`, and
`multi_threaded_claim_strategy::claim(0)` returns a zero-size range without
reserving any sequence — so success does not imply a non-empty claim. -/
theorem zero_count_claim_spec (C : Nat) (s : STState) (next : Nat)
    (hs : s.m_nextSequenceToClaim < W) (hnext : next < W)
    (hcl : 0 ≤ difference s.m_lastKnownClaimableSequence s.m_nextSequenceToClaim ∨
           (difference s.m_lastKnownClaimableSequence s.m_nextSequenceToClaim < 0 ∧
            0 ≤ difference (addw (sbg_last_published s.cells) C) s.m_nextSequenceToClaim)) :
    ((st_try_claim C s 0).1 = true ∧
     (st_try_claim C s 0).2.2 = some ⟨s.m_nextSequenceToClaim, 0⟩ ∧
     (st_try_claim C s 0).2.1.m_nextSequenceToClaim = s.m_nextSequenceToClaim) ∧
    ((mt_claim C next 0).1.size = 0 ∧ (mt_claim C next 0).1.first = next ∧
     (mt_claim C next 0).2 = next) := by
  constructor
  · rcases hcl with h | ⟨h1, h2⟩
    · rw [st_try_claim_cached_eq C s 0 h]
      refine ⟨rfl, ?_, ?_⟩
      · simp
      · show addw s.m_nextSequenceToClaim (min 0 _) = _
        rw [Nat.zero_min, addw_zero _ hs]
    · rw [st_try_claim_fresh_eq C s 0 h1 h2]
      refine ⟨rfl, ?_, ?_⟩
      · simp
      · show addw s.m_nextSequenceToClaim (min 0 _) = _
        rw [Nat.zero_min, addw_zero _ hs]
  · refine ⟨?_, rfl, ?_⟩
    · show min 0 C = 0
      exact Nat.zero_min C
    · show addw next (min 0 C) = next
      rw [Nat.zero_min, addw_zero next hnext]

/-- Witness for C10 at bufferSize 4, cache bound 3 from nextToClaim 0. -/
theorem zero_count_claim_spec_witness :
    ((st_try_claim 4 ⟨0, 3, [W - 1]⟩ 0).1 = true ∧
     (st_try_claim 4 ⟨0, 3, [W - 1]⟩ 0).2.2 = some ⟨0, 0⟩ ∧
     (st_try_claim 4 ⟨0, 3, [W - 1]⟩ 0).2.1.m_nextSequenceToClaim = 0) ∧
    ((mt_claim 4 7 0).1.size = 0 ∧ (mt_claim 4 7 0).1.first = 7 ∧ (mt_claim 4 7 0).2 = 7) :=
  zero_count_claim_spec 4 ⟨0, 3, [W - 1]⟩ 7 (by decide) (by decide) (Or.inl (by decide))

/-- C3: `multi_threaded_claim_strategy::claim(n)` claims exactly
`min(n, buffer_size())` consecutive sequences for every `n`: it fetch-adds
the capped count onto `nextClaimable`, returns the range starting at the
pre-add value with that size, and then waits on the claim-barrier group for
`range.last() - buffer_size()`, whose completed wait (by the wait-strategy
contract) guarantees a sequence at or after that target was published before
`claim` returns. -/
theorem mt_claim_caps_and_waits (C next n : Nat) (cells : List Nat) (ws : Nat → Nat)
    (hws : ∀ t, 0 ≤ difference (ws t) t) :
    (mt_claim C next n).1.first = next ∧
    (mt_claim C next n).1.size = min n C ∧
    (mt_claim C next n).2 = addw next (min n C) ∧
    mt_claim_wait_target C next n = subw (sequence_range.last (mt_claim C next n).1) C ∧
    0 ≤ difference
        (sbg_wait_until_published cells ws (mt_claim_wait_target C next n))
        (mt_claim_wait_target C next n) :=
  ⟨rfl, rfl, rfl, rfl, sbg_wait_contract cells ws _ hws⟩

/-- Witness for C3 at bufferSize 4, nextClaimable 0, requesting 10 (capped to
4), with the identity oracle as an already-satisfied wait. -/
theorem mt_claim_caps_and_waits_witness :
    (mt_claim 4 0 10).1.first = 0 ∧
    (mt_claim 4 0 10).1.size = min 10 4 ∧
    (mt_claim 4 0 10).2 = addw 0 (min 10 4) ∧
    mt_claim_wait_target 4 0 10 = subw (sequence_range.last (mt_claim 4 0 10).1) 4 ∧
    0 ≤ difference
        (sbg_wait_until_published [W - 1] (fun t => t) (mt_claim_wait_target 4 0 10))
        (mt_claim_wait_target 4 0 10) :=
  mt_claim_caps_and_waits 4 0 10 [W - 1] (fun t => t)
    (fun t => le_of_eq (difference_self t).symm)

/-! Characterisation of `last_published_after`. -/

/-- With enough fuel, the scan loop of `last_published_after` returns the end
of the maximal contiguous published run after `known`. -/
theorem lastPublishedAfterAux_spec (m : published_map) :
    ∀ (fuel known : Nat), known < W →
      (∃ j, j < fuel ∧ is_published m (addw known (j + 1)) = false) →
      ∃ len, len < fuel ∧ lastPublishedAfterAux m fuel known = addw known len ∧
        (∀ j, j < len → is_published m (addw known (j + 1)) = true) ∧
        is_published m (addw known (len + 1)) = false := by
  intro fuel
  induction fuel with
  | zero =>
    intro known _ h
    rcases h with ⟨j, hj, _⟩
    omega
  | succ f ih =>
    intro known hknown h
    by_cases hp : is_published m (addw known 1) = true
    · have h2 : ∃ j, j < f ∧ is_published m (addw (addw known 1) (j + 1)) = false := by
        rcases h with ⟨j, hj, hfalse⟩
        cases j with
        | zero => simp_all
        | succ j2 =>
          refine ⟨j2, by omega, ?_⟩
          rw [addw_addw, Nat.add_comm 1 (j2 + 1)]
          exact hfalse
      rcases ih (addw known 1) (addw_lt known 1) h2 with ⟨len, hlen, heq, hall, hstop⟩
      refine ⟨len + 1, by omega, ?_, ?_, ?_⟩
      · show lastPublishedAfterAux m (f + 1) known = _
        simp only [lastPublishedAfterAux, hp, if_true]
        rw [heq, addw_addw, Nat.add_comm 1 len]
      · intro j hj
        cases j with
        | zero => simpa using hp
        | succ j2 =>
          have h3 := hall j2 (by omega)
          rwa [addw_addw, Nat.add_comm 1 (j2 + 1)] at h3
      · rw [addw_addw, Nat.add_comm 1 (len + 1)] at hstop
        exact hstop
    · refine ⟨0, by omega, ?_, ?_, ?_⟩
      · show lastPublishedAfterAux m (f + 1) known = _
        rw [addw_zero known hknown]
        simp only [lastPublishedAfterAux]
        rw [if_neg hp]
      · intro j hj
        omega
      · simpa using hp

/-- Pigeonhole: with a power-of-two capacity, a fixed publication map cannot
publish `bufferSize + 1` consecutive sequences — the first and the last
would need the same entry to hold two different values. -/
theorem published_run_bounded (m : published_map) (k : Nat) (hk : k < 64)
    (hC : m.bufferSize = 2 ^ k) (known : Nat) (hknown : known < W) :
    ∃ j, j < m.bufferSize + 1 ∧ is_published m (addw known (j + 1)) = false := by
  by_contra hcon
  push_neg at hcon
  have h0 : is_published m (addw known 1) = true := by
    have h := hcon 0 (by omega)
    simpa using Bool.ne_false_iff.mp h
  have h1 : is_published m (addw known (m.bufferSize + 1)) = true := by
    have h := hcon m.bufferSize (by omega)
    exact Bool.ne_false_iff.mp h
  have hCW : m.bufferSize < W := by
    rw [hC]
    unfold W
    exact Nat.pow_lt_pow_right (by norm_num) hk
  have hC0 : 0 < m.bufferSize := by
    rw [hC]
    exact Nat.pos_pow_of_pos k (by norm_num)
  have hshift : addw known (m.bufferSize + 1) = addw (addw known 1) m.bufferSize := by
    rw [addw_addw, Nat.add_comm 1 m.bufferSize]
  have hidx : addw (addw known 1) m.bufferSize &&& (m.bufferSize - 1) =
      addw known 1 &&& (m.bufferSize - 1) := by
    rw [hC, Nat.and_pow_two_sub_one_eq_mod, Nat.and_pow_two_sub_one_eq_mod]
    unfold addw W
    rw [Nat.mod_mod_of_dvd _ (Nat.pow_dvd_pow 2 (Nat.le_of_lt hk))]
    rw [Nat.add_mod_right]
  simp only [is_published, beq_iff_eq] at h0 h1
  rw [hshift, hidx] at h1
  rw [h0] at h1
  have hne : addw known 1 ≠ addw (addw known 1) m.bufferSize := by
    have ha : addw known 1 < W := addw_lt known 1
    unfold addw W at *
    omega
  exact hne h1

/-- C4: for every publication-map state with power-of-two capacity and every
starting value, `last_published_after(known)` returns `known + len` where
the `len` sequences after `known` are exactly the contiguous published run
(`known + len + 1` is not published) — in particular it returns `known`
itself when `known + 1` is unpublished, and it never advances past an
unpublished sequence even when later sequences were committed out of
order. -/
theorem last_published_after_spec (m : published_map) (known : Nat) (k : Nat)
    (hk : k < 64) (hC : m.bufferSize = 2 ^ k) (hknown : known < W) :
    ∃ len, len ≤ m.bufferSize ∧
      last_published_after m known = addw known len ∧
      (∀ j, j < len → is_published m (addw known (j + 1)) = true) ∧
      is_published m (addw (last_published_after m known) 1) = false := by
  have hstop := published_run_bounded m k hk hC known hknown
  rcases lastPublishedAfterAux_spec m (m.bufferSize + 1) known hknown hstop with
    ⟨len, h1, h2, h3, h4⟩
  refine ⟨len, by omega, h2, h3, ?_⟩
  unfold last_published_after
  rw [h2, addw_addw]
  exact h4

/-- Witness for C4: capacity 4 with sequences 1 and 3 committed out of order
(entries 1 and 3 updated, entries 0 and 2 fresh); from `known = 0` the scan
reports 1 and does not advance past the unpublished 2 despite 3 being
committed. -/
theorem last_published_after_spec_witness :
    ∃ len, len ≤ (⟨4, fun i => if i = 1 then 1 else if i = 3 then 3 else subw i 4⟩ :
        published_map).bufferSize ∧
      last_published_after ⟨4, fun i => if i = 1 then 1 else if i = 3 then 3 else subw i 4⟩ 0 =
        addw 0 len ∧
      (∀ j, j < len →
        is_published ⟨4, fun i => if i = 1 then 1 else if i = 3 then 3 else subw i 4⟩
          (addw 0 (j + 1)) = true) ∧
      is_published ⟨4, fun i => if i = 1 then 1 else if i = 3 then 3 else subw i 4⟩
        (addw (last_published_after
          ⟨4, fun i => if i = 1 then 1 else if i = 3 then 3 else subw i 4⟩ 0) 1) = false :=
  last_published_after_spec ⟨4, fun i => if i = 1 then 1 else if i = 3 then 3 else subw i 4⟩
    0 2 (by decide) rfl (by decide)

/-- Helper: under the untimed wait-strategy contract the scan loop of the
deadline wait can never take its timeout branch. -/
theorem mtWaitTimedLoop_none (m : published_map) (ws : Nat → Nat)
    (hws : ∀ s, 0 ≤ difference (ws s) s) :
    ∀ remaining seq, mtWaitTimedLoop m ws seq remaining = none := by
  intro remaining
  induction remaining with
  | zero =>
    intro seq
    rfl
  | succ r ih =>
    intro seq
    simp only [mtWaitTimedLoop]
    split_ifs with h1 h2
    · exact ih (addw seq 1)
    · have h3 := hws seq
      omega
    · exact ih (addw seq 1)

/-- C1 (code defect): the deadline overload of
`multi_threaded_claim_strategy::wait_until_published(sequence,
lastKnownPublished, timeoutTime)` never honours its deadline — its body
invokes the untimed wait-strategy overload and drops `timeoutTime`, so under
the wait strategy's untimed contract the branch returning `seq - 1` is dead:
the result is independent of the deadline and always satisfies
`difference(result, sequence) >= 0`, never the advertised negative-difference
timeout indicator. -/
theorem mt_timed_wait_never_times_out (m : published_map) (ws : Nat → Nat)
    (sequence lastKnown t1 t2 : Nat) (k : Nat) (hk : k < 63) (hC : m.bufferSize = 2 ^ k)
    (hseq : sequence < W)
    (hws : ∀ s, 0 ≤ difference (ws s) s)
    (_hpre : 0 < difference sequence lastKnown) :
    mt_wait_until_published_until m ws sequence lastKnown t1 =
      mt_wait_until_published_until m ws sequence lastKnown t2 ∧
    0 ≤ difference (mt_wait_until_published_until m ws sequence lastKnown t1) sequence := by
  refine ⟨rfl, ?_⟩
  unfold mt_wait_until_published_until
  rw [mtWaitTimedLoop_none m ws hws (subw sequence lastKnown) (addw lastKnown 1)]
  show 0 ≤ difference (last_published_after m sequence) sequence
  rcases last_published_after_spec m sequence k (by omega) hC hseq with ⟨len, hlen, heq, _, _⟩
  rw [heq]
  have hlen2 : len < 2 ^ 63 := by
    rw [hC] at hlen
    have h2 : (2 : Nat) ^ k ≤ 2 ^ 62 := Nat.pow_le_pow_right (by norm_num) (by omega)
    omega
  rw [diff_addw_self sequence len hlen2]
  omega

/-- Witness for C1: capacity 1, fresh map (nothing published), waiting for
sequence 0 from the initial `lastKnownPublished = -1`, with two different
(already expired) deadlines: both calls return the same value, at or after
the target — the timeout indicator is never produced. -/
theorem mt_timed_wait_never_times_out_witness :
    mt_wait_until_published_until (mt_initial_published 1) (fun s => s) 0 (W - 1) 0 =
      mt_wait_until_published_until (mt_initial_published 1) (fun s => s) 0 (W - 1) 5 ∧
    0 ≤ difference
        (mt_wait_until_published_until (mt_initial_published 1) (fun s => s) 0 (W - 1) 0) 0 :=
  mt_timed_wait_never_times_out (mt_initial_published 1) (fun s => s) 0 (W - 1) 0 5 0
    (by decide) rfl (by decide) (fun s => le_of_eq (difference_self s).symm) (by decide)

/-! Characterisation of the cell-minimum scans. -/

theorem cell_as_offset (t x : Nat) (hx : x < W) :
    x = intToSeq ((t : Int) + difference x t) := by
  have h := intToSeq_difference_add x t
  rw [Nat.mod_eq_of_lt hx] at h
  rw [Int.add_comm]
  exact h.symm

/-- Two values inside a common `2^62` window around an anchor compare by the
exact difference of their signed offsets from that anchor. -/
theorem diff_via_anchor (t a b : Nat) (ha : a < W) (hb : b < W)
    (hal : -(2 ^ 62) < difference a t) (hau : difference a t < 2 ^ 62)
    (hbl : -(2 ^ 62) < difference b t) (hbu : difference b t < 2 ^ 62) :
    difference a b = difference a t - difference b t := by
  have h1 := cell_as_offset t a ha
  have h2 := cell_as_offset t b hb
  calc difference a b
      = difference (intToSeq ((t : Int) + difference a t))
          (intToSeq ((t : Int) + difference b t)) := by rw [← h1, ← h2]
    _ = difference a t - difference b t :=
        diff_offsets t _ _ (by omega) (by omega) (by omega) (by omega) (by omega)

/-- The fold of `minimum_sequence` returns a member (or its seed) whose
offset from the anchor is minimal, provided every value lies inside the
anchor's `2^62` window. -/
theorem minimumSequenceAux_spec (t : Nat) :
    ∀ (rest : List Nat) (cur : Nat), cur < W →
      -(2 ^ 62) < difference cur t → difference cur t < 2 ^ 62 →
      (∀ x ∈ rest, x < W ∧ -(2 ^ 62) < difference x t ∧ difference x t < 2 ^ 62) →
      (minimumSequenceAux cur rest = cur ∨ minimumSequenceAux cur rest ∈ rest) ∧
      difference (minimumSequenceAux cur rest) t ≤ difference cur t ∧
      (∀ x ∈ rest, difference (minimumSequenceAux cur rest) t ≤ difference x t) := by
  intro rest
  induction rest with
  | nil =>
    intro cur _ _ _ _
    refine ⟨Or.inl rfl, le_refl _, ?_⟩
    intro x hx
    simp at hx
  | cons c r2 ih =>
    intro cur hcw hcl hcu hrest
    obtain ⟨hc1, hc2, hc3⟩ := hrest c (by simp)
    have hrest2 : ∀ x ∈ r2, x < W ∧ -(2 ^ 62) < difference x t ∧ difference x t < 2 ^ 62 :=
      fun x hx => hrest x (by simp [hx])
    have hdcc : difference c cur = difference c t - difference cur t :=
      diff_via_anchor t c cur hc1 hcw hc2 hc3 hcl hcu
    simp only [minimumSequenceAux]
    by_cases hlt : difference c cur < 0
    · rw [if_pos hlt]
      obtain ⟨hmem, hle, hall⟩ := ih c hc1 hc2 hc3 hrest2
      refine ⟨?_, ?_, ?_⟩
      · rcases hmem with h | h
        · exact Or.inr (by simp [h])
        · exact Or.inr (by simp [h])
      · omega
      · intro x hx
        rcases List.mem_cons.mp hx with h | h
        · subst h
          exact hle
        · exact hall x h
    · rw [if_neg hlt]
      obtain ⟨hmem, hle, hall⟩ := ih cur hcw hcl hcu hrest2
      refine ⟨?_, hle, ?_⟩
      · rcases hmem with h | h
        · exact Or.inl h
        · exact Or.inr (by simp [h])
      · intro x hx
        rcases List.mem_cons.mp hx with h | h
        · subst h
          omega
        · exact hall x h

/-- Once the running delta of `minimum_sequence_after` is negative, the loop
stops and returns it unchanged. -/
theorem minSeqAfterAux_neg (t : Nat) (rest : List Nat) (md : Int) (h : md < 0) :
    minSeqAfterAux t md rest = md := by
  cases rest with
  | nil => rfl
  | cons c r2 =>
    simp only [minSeqAfterAux]
    rw [if_neg (by omega)]

/-- When no examined delta is negative, the loop of `minimum_sequence_after`
computes the minimum delta, which is the seed or is achieved by a member. -/
theorem minSeqAfterAux_nonneg (t : Nat) :
    ∀ (rest : List Nat) (md : Int), 0 ≤ md →
      (∀ x ∈ rest, 0 ≤ difference x t) →
      0 ≤ minSeqAfterAux t md rest ∧
      (minSeqAfterAux t md rest = md ∨
        ∃ v ∈ rest, minSeqAfterAux t md rest = difference v t) ∧
      minSeqAfterAux t md rest ≤ md ∧
      (∀ x ∈ rest, minSeqAfterAux t md rest ≤ difference x t) := by
  intro rest
  induction rest with
  | nil =>
    intro md hmd _
    refine ⟨hmd, Or.inl rfl, le_refl _, ?_⟩
    intro x hx
    simp at hx
  | cons c r2 ih =>
    intro md hmd hall
    have hc : 0 ≤ difference c t := hall c (by simp)
    have hall2 : ∀ x ∈ r2, 0 ≤ difference x t := fun x hx => hall x (by simp [hx])
    simp only [minSeqAfterAux]
    rw [if_pos hmd]
    obtain ⟨ih1, ih2, ih3, ih4⟩ := ih (min md (difference c t)) (by omega) hall2
    refine ⟨ih1, ?_, by omega, ?_⟩
    · rcases ih2 with h | ⟨v, hv, hveq⟩
      · rcases le_total md (difference c t) with hmin | hmin
        · exact Or.inl (h.trans (min_eq_left hmin))
        · exact Or.inr ⟨c, by simp, h.trans (min_eq_right hmin)⟩
      · exact Or.inr ⟨v, by simp [hv], hveq⟩
    · intro x hx
      rcases List.mem_cons.mp hx with h | h
      · subst h
        have := min_le_right md (difference x t)
        omega
      · exact ih4 x h

/-- When the seed delta is non-negative but some cell precedes the target,
the loop of `minimum_sequence_after` returns the delta of the first such
cell. -/
theorem minSeqAfterAux_first_neg (t : Nat) :
    ∀ (rest : List Nat) (md : Int), 0 ≤ md →
      (∃ x ∈ rest, difference x t < 0) →
      ∃ v, rest.find? (fun c => decide (difference c t < 0)) = some v ∧
        difference v t < 0 ∧ minSeqAfterAux t md rest = difference v t := by
  intro rest
  induction rest with
  | nil =>
    intro md _ h
    simp at h
  | cons c r2 ih =>
    intro md hmd hex
    by_cases hc : difference c t < 0
    · refine ⟨c, ?_, hc, ?_⟩
      · rw [List.find?_cons_of_pos]
        exact decide_eq_true hc
      · simp only [minSeqAfterAux]
        rw [if_pos hmd, min_eq_right (by omega)]
        exact minSeqAfterAux_neg t r2 (difference c t) hc
    · have hex2 : ∃ x ∈ r2, difference x t < 0 := by
        rcases hex with ⟨x, hx, hxneg⟩
        rcases List.mem_cons.mp hx with h | h
        · subst h
          omega
        · exact ⟨x, h, hxneg⟩
      obtain ⟨v, hfind, hvneg, hveq⟩ := ih (min md (difference c t)) (by omega) hex2
      refine ⟨v, ?_, hvneg, ?_⟩
      · rw [List.find?_cons_of_neg]
        · exact hfind
        · simp
          omega
      · simp only [minSeqAfterAux]
        rw [if_pos hmd]
        exact hveq

/-- C7: for a non-empty cell array inside the target's `2^62` window,
`minimum_sequence_after(target, cells)` stops at the first cell preceding
the target: when no cell precedes the target it returns the minimum of the
cell values under `difference` — a member of the array and the very value
`minimum_sequence` returns — and when some cell precedes the target it
returns that first preceding cell, whose difference to the target is
negative. -/
theorem minimum_sequence_after_spec (t c : Nat) (rest : List Nat)
    (hwin : ∀ x ∈ c :: rest, x < W ∧ -(2 ^ 62) < difference x t ∧ difference x t < 2 ^ 62) :
    ((∀ x ∈ c :: rest, 0 ≤ difference x t) →
       minimum_sequence_after t (c :: rest) ∈ c :: rest ∧
       minimum_sequence_after t (c :: rest) = minimum_sequence (c :: rest) ∧
       (∀ x ∈ c :: rest, difference (minimum_sequence_after t (c :: rest)) x ≤ 0)) ∧
    ((∃ x ∈ c :: rest, difference x t < 0) →
       ∃ v, firstPreceding t (c :: rest) = some v ∧
         minimum_sequence_after t (c :: rest) = v ∧ difference v t < 0) := by
  obtain ⟨hcW, hcl, hcu⟩ := hwin c (by simp)
  have hrest : ∀ x ∈ rest, x < W ∧ -(2 ^ 62) < difference x t ∧ difference x t < 2 ^ 62 :=
    fun x hx => hwin x (by simp [hx])
  constructor
  · intro hpos
    have hc0 : 0 ≤ difference c t := hpos c (by simp)
    have hpos2 : ∀ x ∈ rest, 0 ≤ difference x t := fun x hx => hpos x (by simp [hx])
    obtain ⟨hR0, hRach, hRle, hRall⟩ := minSeqAfterAux_nonneg t rest (difference c t) hc0 hpos2
    have hv0 : ∃ v0 ∈ c :: rest,
        minSeqAfterAux t (difference c t) rest = difference v0 t := by
      rcases hRach with h | ⟨v, hv, hveq⟩
      · exact ⟨c, by simp, h⟩
      · exact ⟨v, by simp [hv], hveq⟩
    obtain ⟨v0, hv0mem, hv0eq⟩ := hv0
    obtain ⟨hv0W, hv0l, hv0u⟩ := hwin v0 hv0mem
    have hval : minimum_sequence_after t (c :: rest) = v0 := by
      show intToSeq (minSeqAfterAux t (difference c t) rest + (t : Int)) = v0
      rw [hv0eq]
      have h := intToSeq_difference_add v0 t
      rw [Nat.mod_eq_of_lt hv0W] at h
      exact h
    have hRmin : ∀ x ∈ c :: rest,
        minSeqAfterAux t (difference c t) rest ≤ difference x t := by
      intro x hx
      rcases List.mem_cons.mp hx with h | h
      · subst h
        exact hRle
      · exact hRall x h
    refine ⟨hval ▸ hv0mem, ?_, ?_⟩
    · obtain ⟨hmem, hle, hall⟩ := minimumSequenceAux_spec t rest c hcW hcl hcu hrest
      have hmsmem : minimumSequenceAux c rest ∈ c :: rest := by
        rcases hmem with h | h
        · simp [h]
        · simp [h]
      obtain ⟨hmsW, hmsl, hmsu⟩ := hwin _ hmsmem
      have h1 : difference (minimumSequenceAux c rest) t ≤
          minSeqAfterAux t (difference c t) rest := by
        rw [hv0eq]
        rcases List.mem_cons.mp hv0mem with h | h
        · rw [h]
          exact hle
        · exact hall v0 h
      have h2 := hRmin _ hmsmem
      have heq2 : difference (minimumSequenceAux c rest) t = difference v0 t := by omega
      have heqv : minimumSequenceAux c rest = v0 := by
        rw [cell_as_offset t (minimumSequenceAux c rest) hmsW, heq2]
        exact (cell_as_offset t v0 hv0W).symm
      calc minimum_sequence_after t (c :: rest) = v0 := hval
        _ = minimumSequenceAux c rest := heqv.symm
        _ = minimum_sequence (c :: rest) := rfl
    · intro x hx
      obtain ⟨hxW, hxl, hxu⟩ := hwin x hx
      rw [hval, diff_via_anchor t v0 x hv0W hxW hv0l hv0u hxl hxu]
      have h3 := hRmin x hx
      omega
  · intro hex
    by_cases hc : difference c t < 0
    · refine ⟨c, ?_, ?_, hc⟩
      · unfold firstPreceding
        rw [List.find?_cons_of_pos]
        exact decide_eq_true hc
      · show intToSeq (minSeqAfterAux t (difference c t) rest + (t : Int)) = c
        rw [minSeqAfterAux_neg t rest _ hc]
        have h := intToSeq_difference_add c t
        rw [Nat.mod_eq_of_lt hcW] at h
        exact h
    · have hc0 : 0 ≤ difference c t := by omega
      have hex2 : ∃ x ∈ rest, difference x t < 0 := by
        rcases hex with ⟨x, hx, hxneg⟩
        rcases List.mem_cons.mp hx with h | h
        · subst h
          omega
        · exact ⟨x, h, hxneg⟩
      obtain ⟨v, hfind, hvneg, hveq⟩ := minSeqAfterAux_first_neg t rest (difference c t) hc0 hex2
      have hvmem : v ∈ rest := List.mem_of_find?_eq_some hfind
      obtain ⟨hvW, hv2, hv3⟩ := hwin v (by simp [hvmem])
      refine ⟨v, ?_, ?_, hvneg⟩
      · unfold firstPreceding
        rw [List.find?_cons_of_neg]
        · exact hfind
        · simpa using hc
      · show intToSeq (minSeqAfterAux t (difference c t) rest + (t : Int)) = v
        rw [hveq]
        have h := intToSeq_difference_add v t
        rw [Nat.mod_eq_of_lt hvW] at h
        exact h

/-- Witness for C7 at target 5 over cells [7, 3, 9]: cell 3 precedes the
target, is found first, and is what `minimum_sequence_after` returns. -/
theorem minimum_sequence_after_spec_witness :
    ∃ v, firstPreceding 5 [7, 3, 9] = some v ∧
      minimum_sequence_after 5 [7, 3, 9] = v ∧ difference v 5 < 0 :=
  (minimum_sequence_after_spec 5 7 [3, 9] (by decide)).2 ⟨3, by simp, by decide⟩

/-! Infrastructure for the back-pressure invariants. -/

theorem subw_addw_self_one (n : Nat) : subw (addw n 1) n = 1 := by
  unfold addw subw W
  omega

theorem subw_subw_cancel (n q : Nat) (hn : n < W) (hq : q < W) : subw n (subw n q) = q := by
  unfold subw W at *
  omega

theorem addw_subw_mix (n a b : Nat) (hn : n < W) (hab : a ≤ b) :
    addw (subw n a) b = addw n (b - a) := by
  unfold addw subw W at *
  omega

theorem addw_subw_mix2 (n a b : Nat) (hn : n < W) (hab : b ≤ a) :
    addw (subw n a) b = subw n (a - b) := by
  unfold addw subw W at *
  omega

/-- A consumer publish (monotone, bounded by the claimed region) moves a cell
to a new offset `e` from the producer cursor with `1 ≤ e ≤ d`. -/
theorem publish_offset (next v x d : Nat) (hv : v < W) (hx : x < W) (hnext : next < W)
    (hd1 : 1 ≤ d) (hd2 : d ≤ 2 ^ 62) (hxd : next = addw x d)
    (hm : 0 ≤ difference v x) (hc : difference v next < 0) :
    1 ≤ subw next v ∧ subw next v ≤ d ∧ next = addw v (subw next v) := by
  rw [difference_spec] at hm hc
  unfold addw subw W at *
  refine ⟨?_, ?_, ?_⟩ <;> omega

/-- Pigeonhole: `n` distinct recent starts all pending means at least `n`
pending entries. -/
theorem pending_pigeonhole (next : Nat) (p : List Nat) (n : Nat) (hn : n < W)
    (h : ∀ j, j < n → subw next (j + 1) ∈ p) : n ≤ p.length := by
  have hcard : ((Finset.range n).image (fun j => subw next (j + 1))).card = n := by
    rw [Finset.card_image_of_injOn, Finset.card_range]
    intro a ha b hb heq
    have h2 := subw_right_cancel next (a + 1) (b + 1)
      (by have := Finset.mem_range.mp ha; omega)
      (by have := Finset.mem_range.mp hb; omega) heq
    omega
  calc n = ((Finset.range n).image (fun j => subw next (j + 1))).card := hcard.symm
    _ ≤ p.toFinset.card := by
        apply Finset.card_le_card
        intro y hy
        rw [Finset.mem_image] at hy
        obtain ⟨j, hj, rfl⟩ := hy
        rw [List.mem_toFinset]
        exact h j (Finset.mem_range.mp hj)
    _ ≤ p.length := p.toFinset_card_le

/-- `minimum_sequence` over cells that all sit behind the producer cursor
returns the cell with the largest offset (the least-advanced barrier). -/
theorem minimum_sequence_max_offset (next : Nat) (hnext : next < W) (cells : List Nat)
    (hne : cells ≠ []) (B : Nat) (hB : B < 2 ^ 62)
    (hcells : ∀ x ∈ cells, ∃ d, 1 ≤ d ∧ d ≤ B ∧ x < W ∧ next = addw x d) :
    ∃ dm, 1 ≤ dm ∧ dm ≤ B ∧ minimum_sequence cells = subw next dm ∧
      ∀ x ∈ cells, ∀ d, d < W → next = addw x d → d ≤ dm := by
  have hoff : ∀ x ∈ cells, ∀ d, 1 ≤ d → d ≤ B → next = addw x d → x < W →
      difference x next = -(d : Int) := by
    intro x _ d hd1 hdB hxeq hxW
    rw [addw_offset_of_mem x d next hxW hxeq]
    exact diff_subw_self next d (by omega) (by omega)
  rcases cells with _ | ⟨c0, restc⟩
  · exact absurd rfl hne
  · have hwin : ∀ x ∈ c0 :: restc,
        x < W ∧ -(2 ^ 62) < difference x next ∧ difference x next < 2 ^ 62 := by
      intro x hx
      obtain ⟨d, hd1, hdB, hxW, hxeq⟩ := hcells x hx
      have hdv := hoff x hx d hd1 hdB hxeq hxW
      exact ⟨hxW, by omega, by omega⟩
    obtain ⟨hc0W, hc0l, hc0u⟩ := hwin c0 (by simp)
    obtain ⟨hmem, hle, hall⟩ := minimumSequenceAux_spec next restc c0 hc0W hc0l hc0u
      (fun x hx => hwin x (by simp [hx]))
    have hmsmem : minimumSequenceAux c0 restc ∈ c0 :: restc := by
      rcases hmem with h | h
      · simp [h]
      · simp [h]
    obtain ⟨dm, hdm1, hdmB, hmsW, hmsEq⟩ := hcells _ hmsmem
    have hmsv := hoff _ hmsmem dm hdm1 hdmB hmsEq hmsW
    refine ⟨dm, hdm1, hdmB, ?_, ?_⟩
    · show minimumSequenceAux c0 restc = subw next dm
      exact addw_offset_of_mem _ dm next hmsW hmsEq
    · intro x hx d hdW hxeq
      obtain ⟨d2, hd21, hd2B, hxW, hxeq2⟩ := hcells x hx
      have hdd : d = d2 :=
        addw_right_cancel x d d2 hdW (by unfold W; omega) (hxeq.symm.trans hxeq2)
      subst hdd
      have hxv := hoff x hx d hd21 hd2B hxeq2 hxW
      have h1 : difference (minimumSequenceAux c0 restc) next ≤ difference x next := by
        rcases List.mem_cons.mp hx with h | h
        · rw [h] at hxv ⊢
          exact hle
        · exact hall x h
      omega

theorem st_try_claim_cells (C : Nat) (s : STState) (n : Nat) :
    (st_try_claim C s n).2.1.cells = s.cells := by
  simp only [st_try_claim]
  split_ifs <;> rfl

theorem stInv_init (C k : Nat) (hC : 1 ≤ C) (hCw : C < 2 ^ 62) :
    stInv C (st_init C k) := by
  simp only [stInv, st_init]
  refine ⟨?_, ?_, by decide⟩
  · intro x hx
    have hxe : x = W - 1 := List.eq_of_mem_replicate hx
    subst hxe
    refine ⟨1, le_refl 1, by omega, by decide, by decide⟩
  · right
    refine ⟨C - 1, ?_, by omega, ?_⟩
    · unfold addw W
      omega
    · intro x hx d hdeq hdle
      have hxe : x = W - 1 := List.eq_of_mem_replicate hx
      subst hxe
      have hd1 : d = 1 := by
        unfold addw W at hdeq
        omega
      omega

theorem stInv_step (C : Nat) (hC : 1 ≤ C) (hCw : C < 2 ^ 61)
    (s t : STState) (hne : s.cells ≠ [])
    (hinv : stInv C s) (hstep : STStep C s t) : stInv C t := by
  obtain ⟨hcells, hcache, hnextW⟩ := hinv
  cases hstep with
  | publish_step i v s2 hi hv hmono hclaimed =>
    simp only [stInv]
    refine ⟨?_, ?_, hnextW⟩
    · intro x hx
      rcases List.mem_or_eq_of_mem_set hx with hxold | hxv
      · exact hcells x hxold
      · subst hxv
        obtain ⟨d, hd1, hdC, hxW, hxeq⟩ := hcells _ (s.cells.get_mem i hi)
        obtain ⟨he1, he2, he3⟩ := publish_offset s.m_nextSequenceToClaim x
          (s.cells.get ⟨i, hi⟩) d hv hxW hnextW hd1 (by omega) hxeq hmono hclaimed
        exact ⟨subw s.m_nextSequenceToClaim x, he1, by omega, hv, he3⟩
    · rcases hcache with h | ⟨g, hg, hgC, hgbound⟩
      · exact Or.inl h
      · refine Or.inr ⟨g, hg, hgC, ?_⟩
        intro x hx d hdeq hdle
        rcases List.mem_or_eq_of_mem_set hx with hxold | hxv
        · exact hgbound x hxold d hdeq hdle
        · subst hxv
          obtain ⟨d0, hd01, hd0C, hx0W, hx0eq⟩ := hcells _ (s.cells.get_mem i hi)
          obtain ⟨he1, he2, he3⟩ := publish_offset s.m_nextSequenceToClaim x
            (s.cells.get ⟨i, hi⟩) d0 hv hx0W hnextW hd01 (by omega) hx0eq hmono hclaimed
          have hgd0 : g + d0 ≤ C :=
            hgbound _ (s.cells.get_mem i hi) d0 hx0eq (by omega)
          have hdd : d = subw s.m_nextSequenceToClaim x := by
            apply addw_right_cancel x d (subw s.m_nextSequenceToClaim x)
              (by unfold W; omega) (subw_lt _ _)
            rw [← hdeq]
            exact he3
          omega
  | try_claim_step n s2 =>
    by_cases h1 : difference s.m_lastKnownClaimableSequence s.m_nextSequenceToClaim < 0
    · obtain ⟨dm, hdm1, hdmC, hmseq, hdmax⟩ := minimum_sequence_max_offset
        s.m_nextSequenceToClaim hnextW s.cells hne (C + 1) (by omega) hcells
      by_cases hfull : dm = C + 1
      · have hfresh : addw (sbg_last_published s.cells) C = subw s.m_nextSequenceToClaim 1 := by
          unfold sbg_last_published
          rw [hmseq, addw_subw_mix2 _ _ _ hnextW (by omega), hfull]
          norm_num
        have hfalse : (st_try_claim C s n).1 = false := by
          rw [st_try_claim_false_iff]
          refine ⟨h1, ?_⟩
          rw [hfresh, diff_subw_self _ 1 (by omega) (by norm_num)]
          norm_num
        rw [st_try_claim_false_eq C s n hfalse]
        exact ⟨hcells, hcache, hnextW⟩
      · have hdmC2 : dm ≤ C := by omega
        have hfresh : addw (sbg_last_published s.cells) C =
            addw s.m_nextSequenceToClaim (C - dm) := by
          unfold sbg_last_published
          rw [hmseq, addw_subw_mix _ _ _ hnextW hdmC2]
        have hdiff2 : difference (addw (sbg_last_published s.cells) C)
            s.m_nextSequenceToClaim = ((C - dm : Nat) : Int) := by
          rw [hfresh]
          exact diff_addw_self _ _ (by omega)
        rw [st_try_claim_fresh_eq C s n h1 (by omega)]
        simp only [stInv]
        have hcnt : (difference (addw (sbg_last_published s.cells) C)
            s.m_nextSequenceToClaim + 1).toNat = C - dm + 1 := by
          rw [hdiff2]
          omega
        rw [hcnt]
        have hcnt2 : min n (C - dm + 1) ≤ C - dm + 1 := min_le_right _ _
        refine ⟨?_, ?_, addw_lt _ _⟩
        · intro x hx
          obtain ⟨d, hd1, hdC, hxW, hxeq⟩ := hcells x hx
          have hddm : d ≤ dm := hdmax x hx d (by unfold W; omega) hxeq
          refine ⟨d + min n (C - dm + 1), by omega, by omega, hxW, ?_⟩
          rw [hxeq, addw_addw]
        · by_cases hcle : min n (C - dm + 1) ≤ C - dm
          · refine Or.inr ⟨C - dm - min n (C - dm + 1), ?_, by omega, ?_⟩
            · rw [hfresh, addw_addw]
              congr 1
              omega
            · intro x hx d hdeq hdle
              obtain ⟨d0, hd01, hd0C, hxW, hxeq0⟩ := hcells x hx
              have hddm : d0 ≤ dm := hdmax x hx d0 (by unfold W; omega) hxeq0
              have hdd : d = d0 + min n (C - dm + 1) := by
                apply addw_right_cancel x d (d0 + min n (C - dm + 1))
                  (by unfold W; omega) (by unfold W; omega)
                rw [← hdeq, hxeq0, addw_addw]
              omega
          · refine Or.inl ?_
            have hcnteq : min n (C - dm + 1) = (C - dm) + 1 := by omega
            have hsplit : addw s.m_nextSequenceToClaim ((C - dm) + 1) =
                addw (addw s.m_nextSequenceToClaim (C - dm)) 1 := by
              rw [addw_addw]
            rw [hfresh, hcnteq, hsplit, subw_addw_cancel _ 1 (addw_lt _ _)]
    · rcases hcache with hcache1 | ⟨g, hg, hgC, hgbound⟩
      · exfalso
        rw [hcache1] at h1
        have := diff_subw_self s.m_nextSequenceToClaim 1 (by omega) (by norm_num)
        omega
      · have hdiff : difference s.m_lastKnownClaimableSequence s.m_nextSequenceToClaim =
            (g : Int) := by
          rw [hg]
          exact diff_addw_self _ g (by omega)
        rw [st_try_claim_cached_eq C s n (by omega)]
        simp only [stInv]
        have hcnt : (difference s.m_lastKnownClaimableSequence
            s.m_nextSequenceToClaim + 1).toNat = g + 1 := by
          rw [hdiff]
          omega
        rw [hcnt]
        have hcnt2 : min n (g + 1) ≤ g + 1 := min_le_right _ _
        refine ⟨?_, ?_, addw_lt _ _⟩
        · intro x hx
          obtain ⟨d, hd1, hdC, hxW, hxeq⟩ := hcells x hx
          have hgd : g + d ≤ C := hgbound x hx d hxeq hdC
          refine ⟨d + min n (g + 1), by omega, by omega, hxW, ?_⟩
          rw [hxeq, addw_addw]
        · by_cases hcle : min n (g + 1) ≤ g
          · refine Or.inr ⟨g - min n (g + 1), ?_, by omega, ?_⟩
            · rw [hg, addw_addw]
              congr 1
              omega
            · intro x hx d hdeq hdle
              obtain ⟨d0, hd01, hd0C, hxW, hxeq0⟩ := hcells x hx
              have hgd : g + d0 ≤ C := hgbound x hx d0 hxeq0 hd0C
              have hdd : d = d0 + min n (g + 1) := by
                apply addw_right_cancel x d (d0 + min n (g + 1))
                  (by unfold W; omega) (by unfold W; omega)
                rw [← hdeq, hxeq0, addw_addw]
              omega
          · refine Or.inl ?_
            have hcnteq : min n (g + 1) = g + 1 := by omega
            have hsplit : addw s.m_nextSequenceToClaim (g + 1) =
                addw (addw s.m_nextSequenceToClaim g) 1 := by
              rw [addw_addw]
            rw [hg, hcnteq, hsplit, subw_addw_cancel _ 1 (addw_lt _ _)]

theorem stReachable_cells_length (C k : Nat) (s : STState)
    (h : STReachable C k s) : s.cells.length = k := by
  induction h with
  | init => exact List.length_replicate k (W - 1)
  | step s t hreach hstep ih =>
    cases hstep with
    | try_claim_step n s2 =>
      rw [st_try_claim_cells]
      exact ih
    | publish_step i v s2 hi hv hmono hclaimed =>
      show (s.cells.set i v).length = k
      rw [List.length_set]
      exact ih

/-- Every reachable state of the single-producer system satisfies the
back-pressure invariant. -/
theorem stReachable_inv (C k : Nat) (hC : 1 ≤ C) (hCw : C < 2 ^ 61) (hk : 1 ≤ k)
    (s : STState) (h : STReachable C k s) : stInv C s := by
  induction h with
  | init => exact stInv_init C k hC (by omega)
  | step s t hreach hstep ih =>
    have hlen := stReachable_cells_length C k s hreach
    have hne : s.cells ≠ [] := by
      intro hnil
      rw [hnil] at hlen
      simp at hlen
      omega
    exact stInv_step C hC hCw s t hne ih hstep

theorem mtInv_init (C k : Nat) (hC : 1 ≤ C) :
    mtInv C ⟨0, [], List.replicate k (W - 1)⟩ := by
  simp only [mtInv]
  refine ⟨?_, ?_, by decide⟩
  · intro x hx
    have hxe : x = W - 1 := List.eq_of_mem_replicate hx
    subst hxe
    refine ⟨1, le_refl 1, by norm_num, by decide, by decide, ?_⟩
    intro j hj
    omega
  · intro q hq
    simp at hq

theorem mtInv_step (C : Nat) (hC : 1 ≤ C) (hCw : C < 2 ^ 61)
    (s t : MTState) (hne : s.cells ≠ [])
    (hinv : mtInv C s) (hstep : MTStep C s t) : mtInv C t := by
  obtain ⟨hcells, hpend, hnextW⟩ := hinv
  cases hstep with
  | claim_start s2 hwin1 hwin2 =>
    simp only [mtInv]
    refine ⟨?_, ?_, addw_lt _ _⟩
    · intro x hx
      obtain ⟨d, hd1, hdw, hxW, hxeq, hreq⟩ := hcells x hx
      have hdbound : d - (C + 1) ≤ s.pending.length :=
        pending_pigeonhole s.m_nextClaimable s.pending (d - (C + 1)) (by unfold W; omega)
          (fun j hj => hreq j (by omega))
      refine ⟨d + 1, by omega, by omega, hxW, ?_, ?_⟩
      · rw [hxeq, addw_addw]
      · intro j hj
        cases j with
        | zero =>
          rw [subw_addw_cancel s.m_nextClaimable 1 hnextW]
          exact List.mem_cons_self _ _
        | succ j2 =>
          rw [subw_succ_shift]
          exact List.mem_cons_of_mem _ (hreq j2 (by omega))
    · intro q hq
      rcases List.mem_cons.mp hq with hq1 | hq2
      · subst hq1
        rw [subw_addw_self_one]
        exact ⟨hnextW, le_refl 1, by norm_num⟩
      · obtain ⟨hqW, hq1, hq2b⟩ := hpend q hq2
        have hb := hwin2 q hq2
        rw [subw_addw_one _ _ (by unfold W; omega)]
        exact ⟨hqW, by omega, by omega⟩
  | claim_finish s2 seq hmem hwait =>
    obtain ⟨hseqW, hs1, hs2⟩ := hpend seq hmem
    obtain ⟨dm, hdm1, hdmB, hmseq, hdmax⟩ := minimum_sequence_max_offset
      s.m_nextClaimable hnextW s.cells hne (2 ^ 62 - 1)
      (by norm_num)
      (fun x hx => by
        obtain ⟨d, hd1, hdw, hxW, hxeq, _⟩ := hcells x hx
        exact ⟨d, hd1, by omega, hxW, hxeq⟩)
    have hseqeq : seq = subw s.m_nextClaimable (subw s.m_nextClaimable seq) :=
      (subw_subw_cancel s.m_nextClaimable seq hnextW hseqW).symm
    have hsub : subw seq C =
        subw s.m_nextClaimable (subw s.m_nextClaimable seq + C) := by
      calc subw seq C
          = subw (subw s.m_nextClaimable (subw s.m_nextClaimable seq)) C := by
            rw [← hseqeq]
        _ = subw s.m_nextClaimable (subw s.m_nextClaimable seq + C) := subw_subw _ _ _
    have hdmle : dm ≤ subw s.m_nextClaimable seq + C := by
      rw [hmseq, hsub] at hwait
      have hd := diff_subw_subw s.m_nextClaimable dm (subw s.m_nextClaimable seq + C)
        (by omega) (by omega)
      omega
    simp only [mtInv]
    refine ⟨?_, ?_, hnextW⟩
    · intro x hx
      obtain ⟨d, hd1, hdw, hxW, hxeq, hreq⟩ := hcells x hx
      have hdle : d ≤ dm := hdmax x hx d (by unfold W; omega) hxeq
      refine ⟨d, hd1, hdw, hxW, hxeq, ?_⟩
      intro j hj
      have helem := hreq j hj
      have hneq : subw s.m_nextClaimable (j + 1) ≠ seq := by
        intro heq
        have h2 : subw s.m_nextClaimable (j + 1) =
            subw s.m_nextClaimable (subw s.m_nextClaimable seq) := by
          rw [heq]
          exact hseqeq
        have h3 := subw_right_cancel s.m_nextClaimable (j + 1)
          (subw s.m_nextClaimable seq) (by unfold W; omega) (subw_lt _ _) h2
        omega
      exact (List.mem_erase_of_ne hneq).mpr helem
    · intro q hq
      exact hpend q (List.mem_of_mem_erase hq)
  | publish_step i v s2 hi hv hmono hclaimed =>
    simp only [mtInv]
    refine ⟨?_, hpend, hnextW⟩
    intro x hx
    rcases List.mem_or_eq_of_mem_set hx with hxold | hxv
    · exact hcells x hxold
    · subst hxv
      obtain ⟨d, hd1, hdw, hx0W, hx0eq, hreq⟩ := hcells _ (s.cells.get_mem i hi)
      obtain ⟨he1, he2, he3⟩ := publish_offset s.m_nextClaimable x
        (s.cells.get ⟨i, hi⟩) d hv hx0W hnextW hd1 (by omega) hx0eq hmono hclaimed
      refine ⟨subw s.m_nextClaimable x, he1, by omega, hv, he3, ?_⟩
      intro j hj
      exact hreq j (by omega)

theorem mtReachable_cells_length (C k : Nat) (s : MTState)
    (h : MTReachable C k s) : s.cells.length = k := by
  induction h with
  | init => exact List.length_replicate k (W - 1)
  | step s t hreach hstep ih =>
    cases hstep with
    | claim_start s2 hwin1 hwin2 => exact ih
    | claim_finish s2 seq hmem hwait => exact ih
    | publish_step i v s2 hi hv hmono hclaimed =>
      show (s.cells.set i v).length = k
      rw [List.length_set]
      exact ih

/-- Every reachable state of the multi-producer system satisfies the
back-pressure invariant. -/
theorem mtReachable_inv (C k : Nat) (hC : 1 ≤ C) (hCw : C < 2 ^ 61) (hk : 1 ≤ k)
    (s : MTState) (h : MTReachable C k s) : mtInv C s := by
  induction h with
  | init => exact mtInv_init C k hC
  | step s t hreach hstep ih =>
    have hlen := mtReachable_cells_length C k s hreach
    have hne : s.cells ≠ [] := by
      intro hnil
      rw [hnil] at hlen
      simp at hlen
      omega
    exact mtInv_step C hC hCw s t hne ih hstep

/-- C2 counterexample: the claimed bound `nextToClaim - min ≤ capacity` fails
on both strategies.  Single producer, capacity 1: one `try_claim(1)` from
the initial state claims sequence 0, after which
`difference(nextToClaim, barrier) = 2 > 1`.  Multi producer, capacity 1: two
`claim_one` fetch-adds with neither wait completed leave
`difference(nextClaimable, barrier) = 3 > 2`, exceeding even
`capacity + 1`. -/
theorem claim_backpressure_bound_counterexample :
    (STReachable 1 1 ⟨1, 0, [W - 1]⟩ ∧
     ¬ difference (1 : Nat) (minimum_sequence [W - 1]) ≤ (1 : Int)) ∧
    (MTReachable 1 1 ⟨2, [1, 0], [W - 1]⟩ ∧
     ¬ difference (2 : Nat) (minimum_sequence [W - 1]) ≤ (1 : Int) + 1) := by
  refine ⟨⟨?_, by decide⟩, ?_, by decide⟩
  · have hstep : STStep 1 (st_init 1 1) (st_try_claim 1 (st_init 1 1) 1).2.1 :=
      STStep.try_claim_step 1 (st_init 1 1)
    have he : (st_try_claim 1 (st_init 1 1) 1).2.1 = (⟨1, 0, [W - 1]⟩ : STState) := by decide
    rw [he] at hstep
    exact STReachable.step _ _ STReachable.init hstep
  · have h0 : MTReachable 1 1 ⟨0, [], List.replicate 1 (W - 1)⟩ := MTReachable.init
    have hs1 : MTStep 1 ⟨0, [], List.replicate 1 (W - 1)⟩
        ⟨addw 0 1, 0 :: ([] : List Nat), List.replicate 1 (W - 1)⟩ :=
      MTStep.claim_start _ (by decide) (by simp)
    have he1 : (⟨addw 0 1, 0 :: ([] : List Nat), List.replicate 1 (W - 1)⟩ : MTState) =
        ⟨1, [0], [W - 1]⟩ := by decide
    rw [he1] at hs1
    have h1 : MTReachable 1 1 ⟨1, [0], [W - 1]⟩ := MTReachable.step _ _ h0 hs1
    have hs2 : MTStep 1 ⟨1, [0], [W - 1]⟩ ⟨addw 1 1, 1 :: [0], [W - 1]⟩ :=
      MTStep.claim_start _ (by decide) (by decide)
    have he2 : (⟨addw 1 1, 1 :: [0], [W - 1]⟩ : MTState) = ⟨2, [1, 0], [W - 1]⟩ := by decide
    rw [he2] at hs2
    exact MTReachable.step _ _ h1 hs2

/-- C2 (amended): with at least one registered barrier and capacity inside
the window assumption, every reachable state of the single-producer strategy
satisfies `0 < difference(nextToClaim, cell) ≤ capacity + 1` for every
barrier cell (the original bound `capacity` is exceeded by one once all
available slots are claimed); for the multi-producer strategy the counter
itself can exceed any such bound while claim calls are in flight, but
whenever no claim is in flight the same `capacity + 1` bound holds, and a
claim whose back-pressure wait has completed (the guard of its return) has
its sequence within `capacity` of the barrier minimum. -/
theorem claim_backpressure_bound_amended (C k : Nat) (hC : 1 ≤ C) (hCw : C < 2 ^ 61)
    (hk : 1 ≤ k) :
    (∀ s, STReachable C k s → ∀ x ∈ s.cells,
        0 < difference s.m_nextSequenceToClaim x ∧
        difference s.m_nextSequenceToClaim x ≤ (C : Int) + 1) ∧
    (∀ s, MTReachable C k s → s.pending = [] → ∀ x ∈ s.cells,
        0 < difference s.m_nextClaimable x ∧
        difference s.m_nextClaimable x ≤ (C : Int) + 1) ∧
    (∀ s seq, MTReachable C k s → seq ∈ s.pending →
        0 ≤ difference (minimum_sequence s.cells) (subw seq C) →
        difference seq (minimum_sequence s.cells) ≤ (C : Int)) := by
  refine ⟨?_, ?_, ?_⟩
  · intro s hreach x hx
    obtain ⟨hcells, _, _⟩ := stReachable_inv C k hC hCw hk s hreach
    obtain ⟨d, hd1, hdC, hxW, hxeq⟩ := hcells x hx
    rw [hxeq, diff_addw_self x d (by omega)]
    omega
  · intro s hreach hquiet x hx
    obtain ⟨hcells, _, _⟩ := mtReachable_inv C k hC hCw hk s hreach
    obtain ⟨d, hd1, hdw, hxW, hxeq, hreq⟩ := hcells x hx
    have hdle : d ≤ C + 1 := by
      by_contra hgt
      have h0 := hreq 0 (by omega)
      rw [hquiet] at h0
      simp at h0
    rw [hxeq, diff_addw_self x d (by omega)]
    omega
  · intro s seq hreach hmem hwait
    obtain ⟨hcells, hpend, hnextW⟩ := mtReachable_inv C k hC hCw hk s hreach
    have hlen := mtReachable_cells_length C k s hreach
    have hne : s.cells ≠ [] := by
      intro hnil
      rw [hnil] at hlen
      simp at hlen
      omega
    obtain ⟨hseqW, hs1, hs2⟩ := hpend seq hmem
    obtain ⟨dm, hdm1, hdmB, hmseq, hdmax⟩ := minimum_sequence_max_offset
      s.m_nextClaimable hnextW s.cells hne (2 ^ 62 - 1) (by norm_num)
      (fun x hx => by
        obtain ⟨d, hd1, hdw, hxW, hxeq, _⟩ := hcells x hx
        exact ⟨d, hd1, by omega, hxW, hxeq⟩)
    have hseqeq : seq = subw s.m_nextClaimable (subw s.m_nextClaimable seq) :=
      (subw_subw_cancel s.m_nextClaimable seq hnextW hseqW).symm
    have hsub : subw seq C =
        subw s.m_nextClaimable (subw s.m_nextClaimable seq + C) := by
      calc subw seq C
          = subw (subw s.m_nextClaimable (subw s.m_nextClaimable seq)) C := by
            rw [← hseqeq]
        _ = subw s.m_nextClaimable (subw s.m_nextClaimable seq + C) := subw_subw _ _ _
    have hdmle : dm ≤ subw s.m_nextClaimable seq + C := by
      rw [hmseq, hsub] at hwait
      have hd := diff_subw_subw s.m_nextClaimable dm (subw s.m_nextClaimable seq + C)
        (by omega) (by omega)
      omega
    rw [hmseq]
    calc difference seq (subw s.m_nextClaimable dm)
        = difference (subw s.m_nextClaimable (subw s.m_nextClaimable seq))
            (subw s.m_nextClaimable dm) := by rw [← hseqeq]
      _ = (dm : Int) - (subw s.m_nextClaimable seq : Int) :=
          diff_subw_subw _ _ _ (by omega) (by omega)
      _ ≤ (C : Int) := by omega

/-- Witness for the amended C2 at capacity 1, one barrier, evaluated at the
initial single-producer state. -/
theorem claim_backpressure_bound_amended_witness :
    0 < difference (st_init 1 1).m_nextSequenceToClaim (W - 1) ∧
    difference (st_init 1 1).m_nextSequenceToClaim (W - 1) ≤ (1 : Int) + 1 :=
  (claim_backpressure_bound_amended 1 1 (by decide) (by decide) (by decide)).1
    (st_init 1 1) STReachable.init (W - 1) (by decide)
